import Mathlib

/-!
Verification of the collaborative-canvas synchronization engine.

The development shallowly embeds the server-side state of the application:
the `StateManager` (per-room stroke histories and per-user redo stacks,
`src/server/state-manager.js`), the `RoomManager` (room membership,
`src/server/rooms.js`), the socket event handlers of `src/server/server.js`,
and the stroke-completion boundary of the client canvas module
(`src/client/canvas.js`, `stopDrawing`).

JavaScript `Map`s are embedded as association lists with the exact
insertion-order/replace-in-place semantics of `Map.set`, `Map.get`,
`Map.has` and `Map.delete`.  JavaScript objects whose keys may be absent
(the wire payloads) carry `Option` fields.  Every call to `Date.now()`
inside one event handler is modelled as a single instant passed in as a
`now : Nat` parameter.
-/

namespace CollabCanvas

/-- A 2-D point `{x, y}` as captured by the canvas module and stored in
stroke data.  The engine never computes with coordinates, it only stores
and forwards them; rationals stand in for JavaScript numbers. -/
structure Point where
  x : ℚ
  y : ℚ
deriving Repr, DecidableEq

/-- The identifier produced by `generateStrokeId`: the source formats the
pair into the string `stroke_<time>_<counter>`, which is injective in
`(time, counter)` since neither decimal component contains an
underscore. -/
structure StrokeId where
  time : Nat
  counter : Nat
deriving Repr, DecidableEq

/-- The `strokeData` object assembled by the `stroke_complete` handler in
`server.js`: the client payload fields plus `userId`, `username` and
`timestamp`.  It has no `id` and no `createdAt` key. -/
structure StrokeData where
  points : List Point
  color : String
  width : ℚ
  tool : String
  userId : String
  username : String
  timestamp : Nat
deriving Repr, DecidableEq

/-- A finalized stroke as persisted by `StateManager.addStroke`:
`{ id: generateStrokeId(), ...strokeData, createdAt: Date.now() }`. -/
structure Stroke where
  id : StrokeId
  data : StrokeData
  createdAt : Nat
deriving Repr, DecidableEq

/-- A stroke-shaped object on the wire: the `id` and `createdAt` keys may
be absent (`none`), as presence of keys on a JavaScript object. -/
structure WireStroke where
  id : Option StrokeId
  data : StrokeData
  createdAt : Option Nat
deriving Repr, DecidableEq

/-- The `strokeData` object broadcast verbatim by the `stroke_complete`
handler: no `id` key, no `createdAt` key. -/
def StrokeData.toWire (d : StrokeData) : WireStroke :=
  ⟨none, d, none⟩

/-- A persisted stroke viewed as a wire object: both keys present. -/
def Stroke.toWire (s : Stroke) : WireStroke :=
  ⟨some s.id, s.data, some s.createdAt⟩

/-- The `userData` object created per connection in `server.js`. -/
structure UserData where
  id : String
  username : String
  color : String
  cursorX : ℚ
  cursorY : ℚ
  isDrawing : Bool
deriving Repr, DecidableEq

/-- The payload of a `stroke_complete` client message
(`{points, color, width, tool}`), as emitted by `stopDrawing`. -/
structure StrokeInput where
  points : List Point
  color : String
  width : ℚ
  tool : String
deriving Repr, DecidableEq

/- ### JavaScript `Map` embedding -/

variable {α β : Type} [DecidableEq α]

/-- `Map.get`: the value at the first matching key, if present. -/
def mapLookup : List (α × β) → α → Option β
  | [], _ => none
  | (k, v) :: rest, k' => if k = k' then some v else mapLookup rest k'

/-- `Map.has`. -/
def mapHas (l : List (α × β)) (k : α) : Bool :=
  (mapLookup l k).isSome

/-- `Map.set`: replaces the value at an existing key in place, otherwise
appends the new entry (JavaScript `Map` preserves insertion order). -/
def mapSet : List (α × β) → α → β → List (α × β)
  | [], k, v => [(k, v)]
  | (k', v') :: rest, k, v =>
    if k' = k then (k, v) :: rest else (k', v') :: mapSet rest k v

/-- `Map.delete`: removes the entry at the key, if present. -/
def mapDelete : List (α × β) → α → List (α × β)
  | [], _ => []
  | (k', v') :: rest, k =>
    if k' = k then rest else (k', v') :: mapDelete rest k

/- ### StateManager (`src/server/state-manager.js`) -/

/-- The fields of the `StateManager` class: `roomStrokes` maps a room id
to its ordered stroke history, `redoStacks` maps a room id to a map from
user id to that user's redo stack, and `strokeIdCounter` feeds
`generateStrokeId`. -/
structure SMState where
  roomStrokes : List (String × List Stroke)
  redoStacks : List (String × List (String × List Stroke))
  strokeIdCounter : Nat
deriving Repr, DecidableEq

/-- The state of a freshly constructed `StateManager`. -/
def SMState.initial : SMState :=
  ⟨[], [], 0⟩

/-- `generateStrokeId`: increments the counter and returns
`stroke_<Date.now()>_<counter>`. -/
def generateStrokeId (now : Nat) (st : SMState) : StrokeId × SMState :=
  let c := st.strokeIdCounter + 1
  (⟨now, c⟩, { st with strokeIdCounter := c })

/-- `initRoom`: lazily creates the per-room containers.  The guard tests
only `roomStrokes.has(roomId)`; both maps are populated together. -/
def initRoom (roomId : String) (st : SMState) : SMState :=
  if mapHas st.roomStrokes roomId then st
  else
    { st with
      roomStrokes := mapSet st.roomStrokes roomId []
      redoStacks := mapSet st.redoStacks roomId [] }

/-- `addStroke`: builds `{ id: generateStrokeId(), ...strokeData,
createdAt: Date.now() }`, pushes it onto the room's history, and resets
the committing user's redo stack to `[]` when that user has one. -/
def addStroke (roomId : String) (strokeData : StrokeData) (now : Nat)
    (st : SMState) : Stroke × SMState :=
  let st1 := initRoom roomId st
  let idAndSt := generateStrokeId now st1
  let stroke : Stroke := ⟨idAndSt.1, strokeData, now⟩
  let st2 := idAndSt.2
  let hist := (mapLookup st2.roomStrokes roomId).getD []
  let redoStack := (mapLookup st2.redoStacks roomId).getD []
  let redoStacks' :=
    if mapHas redoStack strokeData.userId then
      mapSet st2.redoStacks roomId (mapSet redoStack strokeData.userId [])
    else st2.redoStacks
  (stroke,
    { st2 with
      roomStrokes := mapSet st2.roomStrokes roomId (hist ++ [stroke])
      redoStacks := redoStacks' })

/-- `getStrokes`: initializes the room and returns its history. -/
def getStrokes (roomId : String) (st : SMState) : List Stroke × SMState :=
  let st1 := initRoom roomId st
  ((mapLookup st1.roomStrokes roomId).getD [], st1)

/-- The reverse scan of `undoStroke`: removes the last stroke in the
list owned by `userId`, returning it with the remaining list.  `none`
when the user owns no stroke. -/
def removeLastBy (userId : String) : List Stroke → Option (Stroke × List Stroke)
  | [] => none
  | s :: rest =>
    match removeLastBy userId rest with
    | some (t, rest') => some (t, s :: rest')
    | none => if s.data.userId = userId then some (s, rest) else none

/-- `undoStroke`: scans the history from the end for the requester's own
most recent stroke, splices it out, and pushes it onto the requester's
redo stack (creating the stack when absent).  Returns `none` and leaves
the state as initialized when the requester owns nothing. -/
def undoStroke (roomId userId : String) (st : SMState) :
    Option Stroke × SMState :=
  let st1 := initRoom roomId st
  let strokes := (mapLookup st1.roomStrokes roomId).getD []
  let redoStack := (mapLookup st1.redoStacks roomId).getD []
  match removeLastBy userId strokes with
  | some (undone, strokes') =>
    let userStack := (mapLookup redoStack userId).getD []
    (some undone,
      { st1 with
        roomStrokes := mapSet st1.roomStrokes roomId strokes'
        redoStacks :=
          mapSet st1.redoStacks roomId
            (mapSet redoStack userId (userStack ++ [undone])) })
  | none => (none, st1)

/-- `redoStroke`: pops the top of the requester's redo stack (the array
end) and pushes it onto the room's history.  Returns `none` when the
stack is absent or empty. -/
def redoStroke (roomId userId : String) (st : SMState) :
    Option Stroke × SMState :=
  let st1 := initRoom roomId st
  let strokes := (mapLookup st1.roomStrokes roomId).getD []
  let redoStack := (mapLookup st1.redoStacks roomId).getD []
  match mapLookup redoStack userId with
  | none => (none, st1)
  | some userStack =>
    match userStack.getLast? with
    | none => (none, st1)
    | some stroke =>
      (some stroke,
        { st1 with
          roomStrokes := mapSet st1.roomStrokes roomId (strokes ++ [stroke])
          redoStacks :=
            mapSet st1.redoStacks roomId
              (mapSet redoStack userId userStack.dropLast) })

/-- `clearStrokes`: resets the room's history to `[]` and its redo map to
a fresh empty map. -/
def clearStrokes (roomId : String) (st : SMState) : SMState :=
  let st1 := initRoom roomId st
  { st1 with
    roomStrokes := mapSet st1.roomStrokes roomId []
    redoStacks := mapSet st1.redoStacks roomId [] }

/-- `removeStroke`: splices out the stroke with the given id, if any. -/
def removeStroke (roomId : String) (strokeId : StrokeId) (st : SMState) :
    Bool × SMState :=
  let st1 := initRoom roomId st
  let strokes := (mapLookup st1.roomStrokes roomId).getD []
  match strokes.findIdx? (fun s => s.id = strokeId) with
  | some i =>
    (true,
      { st1 with roomStrokes := mapSet st1.roomStrokes roomId (strokes.eraseIdx i) })
  | none => (false, st1)

/-- `getStrokeCount`. -/
def getStrokeCount (roomId : String) (st : SMState) : Nat × SMState :=
  let st1 := initRoom roomId st
  (((mapLookup st1.roomStrokes roomId).getD []).length, st1)

/-- `cleanupUserHistory`: on disconnect, deletes only the user's redo
stack; the room's stroke history is untouched. -/
def cleanupUserHistory (roomId userId : String) (st : SMState) : SMState :=
  match mapLookup st.redoStacks roomId with
  | some m => { st with redoStacks := mapSet st.redoStacks roomId (mapDelete m userId) }
  | none => st

/-- `getUserStrokes`. -/
def getUserStrokes (roomId userId : String) (st : SMState) :
    List Stroke × SMState :=
  let st1 := initRoom roomId st
  (((mapLookup st1.roomStrokes roomId).getD []).filter
      (fun s => s.data.userId = userId),
    st1)

/-- The room's history as observed through the `roomStrokes` map. -/
def roomHist (st : SMState) (roomId : String) : List Stroke :=
  (mapLookup st.roomStrokes roomId).getD []

/-- A user's redo stack for a room as observed through `redoStacks`
(an absent room entry or user entry reads as the empty stack). -/
def userRedo (st : SMState) (roomId userId : String) : List Stroke :=
  (mapLookup ((mapLookup st.redoStacks roomId).getD []) userId).getD []

/- ### RoomManager (`src/server/rooms.js`) -/

/-- The `rooms` field of the `RoomManager` class: room id to a map from
user id to the stored `userData`. -/
structure RMState where
  rooms : List (String × List (String × UserData))
deriving Repr, DecidableEq

/-- A freshly constructed `RoomManager`. -/
def RMState.initial : RMState :=
  ⟨[]⟩

/-- `createRoom`. -/
def createRoom (roomId : String) (st : RMState) : RMState :=
  if mapHas st.rooms roomId then st
  else ⟨mapSet st.rooms roomId []⟩

/-- `addUser`: ensures the room exists, then stores the user keyed by
its id. -/
def addUser (roomId : String) (userData : UserData) (st : RMState) : RMState :=
  let st1 := createRoom roomId st
  let room := (mapLookup st1.rooms roomId).getD []
  ⟨mapSet st1.rooms roomId (mapSet room userData.id userData)⟩

/-- `removeUser`: deletes the user from the room and deletes the room
itself once its membership is empty.  Returns whether the user was
present. -/
def removeUser (roomId userId : String) (st : RMState) : Bool × RMState :=
  match mapLookup st.rooms roomId with
  | none => (false, st)
  | some room =>
    match mapLookup room userId with
    | none => (false, st)
    | some _ =>
      let room' := mapDelete room userId
      if room'.isEmpty then (true, ⟨mapDelete st.rooms roomId⟩)
      else (true, ⟨mapSet st.rooms roomId room'⟩)

/-- `getUsers`: snapshot of the membership values. -/
def getUsers (roomId : String) (st : RMState) : List UserData :=
  ((mapLookup st.rooms roomId).getD []).map Prod.snd

/-- `roomExists`. -/
def roomExists (roomId : String) (st : RMState) : Bool :=
  mapHas st.rooms roomId

/-- `getUserCount`. -/
def getUserCount (roomId : String) (st : RMState) : Nat :=
  ((mapLookup st.rooms roomId).getD []).length

/- ### Synchronization coordinator (`src/server/server.js`) -/

/-- The server process state: the two managers. -/
structure ServerState where
  rm : RMState
  sm : SMState
deriving Repr, DecidableEq

/-- Every connection joins the hard-coded room. -/
def defaultRoom : String :=
  "main"

/-- The fan-out of a `socket.io` emit: `socket.emit` (the requester
only), `socket.to(room).emit` (everyone else), `io.to(room).emit`
(the whole room including the requester). -/
inductive Fanout where
  | toSocket
  | toOthers
  | toRoom
deriving Repr, DecidableEq

/-- The outbound messages the modelled handlers produce. -/
inductive ServerMsg where
  | init (userId username userColor : String) (strokes : List Stroke)
      (users : List UserData)
  | userJoined (u : UserData)
  | strokeSaved (payload : WireStroke)
  | undoStrokeMsg (strokeId : StrokeId) (userId : String)
      (allStrokes : List Stroke)
  | redoStrokeMsg (stroke : Stroke) (userId : String)
      (allStrokes : List Stroke)
  | canvasCleared (userId username : String)
  | userLeft (userId username : String)
deriving Repr, DecidableEq

/-- The connection handler: join the default room, register the user,
send the `init` snapshot to the new socket, and notify the others. -/
def handleConnection (u : UserData) (st : ServerState) :
    ServerState × List (Fanout × ServerMsg) :=
  let rm' := addUser defaultRoom u st.rm
  let strokesAndSm := getStrokes defaultRoom st.sm
  (⟨rm', strokesAndSm.2⟩,
    [(Fanout.toSocket,
        ServerMsg.init u.id u.username u.color strokesAndSm.1
          (getUsers defaultRoom rm')),
      (Fanout.toOthers, ServerMsg.userJoined u)])

/-- The `stroke_complete` handler: wraps the client payload into
`strokeData`, persists it via `addStroke`, and broadcasts the
**`strokeData` object itself** (not the finalized stroke returned by
`addStroke`) to the whole room. -/
def handleStrokeComplete (socketId username : String) (input : StrokeInput)
    (now : Nat) (st : ServerState) : ServerState × List (Fanout × ServerMsg) :=
  let strokeData : StrokeData :=
    ⟨input.points, input.color, input.width, input.tool, socketId, username, now⟩
  let strokeAndSm := addStroke defaultRoom strokeData now st.sm
  (⟨st.rm, strokeAndSm.2⟩,
    [(Fanout.toRoom, ServerMsg.strokeSaved strokeData.toWire)])

/-- The `undo` handler: broadcasts the undone stroke id and the full
history to the whole room on success, nothing on `null`. -/
def handleUndo (socketId : String) (st : ServerState) :
    ServerState × List (Fanout × ServerMsg) :=
  let res := undoStroke defaultRoom socketId st.sm
  match res.1 with
  | some undone =>
    let allAndSm := getStrokes defaultRoom res.2
    (⟨st.rm, allAndSm.2⟩,
      [(Fanout.toRoom, ServerMsg.undoStrokeMsg undone.id socketId allAndSm.1)])
  | none => (⟨st.rm, res.2⟩, [])

/-- The `redo` handler: broadcasts the restored stroke and the full
history to the whole room on success, nothing on `null`. -/
def handleRedo (socketId : String) (st : ServerState) :
    ServerState × List (Fanout × ServerMsg) :=
  let res := redoStroke defaultRoom socketId st.sm
  match res.1 with
  | some redone =>
    let allAndSm := getStrokes defaultRoom res.2
    (⟨st.rm, allAndSm.2⟩,
      [(Fanout.toRoom, ServerMsg.redoStrokeMsg redone socketId allAndSm.1)])
  | none => (⟨st.rm, res.2⟩, [])

/-- The `clear_canvas` handler. -/
def handleClearCanvas (socketId username : String) (st : ServerState) :
    ServerState × List (Fanout × ServerMsg) :=
  (⟨st.rm, clearStrokes defaultRoom st.sm⟩,
    [(Fanout.toRoom, ServerMsg.canvasCleared socketId username)])

/-- The `disconnect` handler: deregister from the room registry, discard
the user's redo stack, notify the rest of the room. -/
def handleDisconnect (socketId username : String) (st : ServerState) :
    ServerState × List (Fanout × ServerMsg) :=
  (⟨(removeUser defaultRoom socketId st.rm).2,
      cleanupUserHistory defaultRoom socketId st.sm⟩,
    [(Fanout.toOthers, ServerMsg.userLeft socketId username)])

/- ### Client stroke-completion boundary (`src/client/canvas.js`) -/

/-- The style fields of `this.currentStroke` (its `points` field aliases
`this.currentPath`, which the embedding reads directly). -/
structure CurrentStroke where
  color : String
  width : ℚ
  tool : String
deriving Repr, DecidableEq

/-- The drawing-state fields of `CanvasManager` that `stopDrawing`
touches. -/
structure CanvasState where
  isDrawing : Bool
  currentPath : List Point
  currentStroke : Option CurrentStroke
deriving Repr, DecidableEq

/-- `stopDrawing`: emits `onStrokeComplete` with a copy of the captured
path only when the path holds more than one point (`main.js` installs
the callback unconditionally), then resets the drawing state. -/
def stopDrawing (cst : CanvasState) : CanvasState × Option StrokeInput :=
  if !cst.isDrawing then (cst, none)
  else
    let emitted :=
      if cst.currentPath.length > 1 then
        match cst.currentStroke with
        | some cs => some ⟨cst.currentPath, cs.color, cs.width, cs.tool⟩
        | none => none
      else none
    (⟨false, [], none⟩, emitted)

/- ### Operation alphabet over the state manager -/

/-- One call into the `StateManager` interface (every public method). -/
inductive SMOp where
  | add (roomId : String) (d : StrokeData) (now : Nat)
  | get (roomId : String)
  | undo (roomId userId : String)
  | redo (roomId userId : String)
  | clear (roomId : String)
  | remove (roomId : String) (sid : StrokeId)
  | count (roomId : String)
  | cleanup (roomId userId : String)
  | userStrokes (roomId userId : String)
deriving Repr, DecidableEq

/-- The state transformer of one `StateManager` call. -/
def applySMOp : SMOp → SMState → SMState
  | .add r d n, st => (addStroke r d n st).2
  | .get r, st => (getStrokes r st).2
  | .undo r u, st => (undoStroke r u st).2
  | .redo r u, st => (redoStroke r u st).2
  | .clear r, st => clearStrokes r st
  | .remove r sid, st => (removeStroke r sid st).2
  | .count r, st => (getStrokeCount r st).2
  | .cleanup r u, st => cleanupUserHistory r u st
  | .userStrokes r u, st => (getUserStrokes r u st).2

/-- A whole run of `StateManager` calls from a given state. -/
def applySMOps (ops : List SMOp) (st : SMState) : SMState :=
  ops.foldl (fun s op => applySMOp op s) st

/- ### Identifier accounting for the uniqueness invariant -/

/-- The multiset of id counters of a list of strokes. -/
def strokeCtrs (ss : List Stroke) : Multiset Nat :=
  (ss.map (fun s => s.id.counter) : List Nat)

/-- Sum an entry-wise multiset measure over an association list. -/
def msum (F : β → Multiset Nat) (l : List (α × β)) : Multiset Nat :=
  (l.map (fun p => F p.2)).sum

/-- The id counters held in one room's redo map. -/
def stackCtrs (m : List (String × List Stroke)) : Multiset Nat :=
  msum strokeCtrs m

/-- Every id counter held anywhere in the store: all histories plus all
redo stacks. -/
def allCtrs (st : SMState) : Multiset Nat :=
  msum strokeCtrs st.roomStrokes + msum stackCtrs st.redoStacks

/-- The id-uniqueness invariant: no counter occurs twice anywhere in the
store, and every stored counter is at most `strokeIdCounter`. -/
def ctrInv (st : SMState) : Prop :=
  (allCtrs st).Nodup ∧ ∀ c ∈ allCtrs st, c ≤ st.strokeIdCounter

/-- The room-key invariant relating the two maps of the store. -/
def roomKeyInv (st : SMState) : Prop :=
  ∀ r, mapHas st.roomStrokes r = mapHas st.redoStacks r

/- ### Concrete sample states for evaluating the theorems -/

/-- A two-point stroke payload committed by user `u1`. -/
def sampleData1 : StrokeData :=
  ⟨[⟨0, 0⟩, ⟨1, 1⟩], "#000000", 3, "brush", "u1", "HappyArtist1", 5⟩

/-- A two-point stroke payload committed by user `u2`. -/
def sampleData2 : StrokeData :=
  ⟨[⟨2, 2⟩, ⟨3, 3⟩], "#e74c3c", 4, "brush", "u2", "SwiftPainter2", 6⟩

/-- The stroke the store persists for `sampleData1` as the first commit. -/
def sampleStroke1 : Stroke :=
  ⟨⟨5, 1⟩, sampleData1, 5⟩

/-- The stroke the store persists for `sampleData2` as the second commit. -/
def sampleStroke2 : Stroke :=
  ⟨⟨6, 2⟩, sampleData2, 6⟩

/-- A store holding both sample strokes in room `main`. -/
def sampleSM : SMState :=
  ⟨[("main", [sampleStroke1, sampleStroke2])], [("main", [])], 2⟩

/-- A store where `u1` has undone `sampleStroke1` (it sits on the redo
stack) while `sampleStroke2` remains in the history. -/
def sampleSMRedo : SMState :=
  ⟨[("main", [sampleStroke2])], [("main", [("u1", [sampleStroke1])])], 2⟩

/-- The connection data of a sample user. -/
def sampleUser1 : UserData :=
  ⟨"u1", "HappyArtist1", "#e74c3c", 0, 0, false⟩

/-- The connection data of a second sample user. -/
def sampleUser2 : UserData :=
  ⟨"u2", "SwiftPainter2", "#3498db", 0, 0, false⟩

/-- A server state: `u1` alone in room `main`, both sample strokes
persisted. -/
def sampleServer : ServerState :=
  ⟨⟨[("main", [("u1", sampleUser1)])]⟩, sampleSM⟩

/- ### Lemmas about the `Map` embedding -/

theorem mapLookup_mapSet (l : List (α × β)) (k k' : α) (v : β) :
    mapLookup (mapSet l k v) k' = if k = k' then some v else mapLookup l k' := by
  induction l with
  | nil => simp [mapSet, mapLookup]
  | cons p rest ih =>
    obtain ⟨a, b⟩ := p
    by_cases hak : a = k
    · subst hak
      by_cases hkk : a = k'
      · subst hkk; simp [mapSet, mapLookup]
      · simp [mapSet, mapLookup, hkk]
    · by_cases hk : a = k'
      · subst hk
        have hkk : ¬ k = a := fun h => hak h.symm
        simp [mapSet, mapLookup, hak, hkk]
      · simp [mapSet, mapLookup, hak, hk, ih]

theorem mapLookup_mapSet_self (l : List (α × β)) (k : α) (v : β) :
    mapLookup (mapSet l k v) k = some v := by
  simp [mapLookup_mapSet]

theorem mapLookup_mapSet_ne (l : List (α × β)) (k k' : α) (v : β)
    (h : ¬ k = k') : mapLookup (mapSet l k v) k' = mapLookup l k' := by
  simp [mapLookup_mapSet, h]

theorem mapHas_mapSet (l : List (α × β)) (k k' : α) (v : β) :
    mapHas (mapSet l k v) k' = (decide (k = k') || mapHas l k') := by
  by_cases h : k = k'
  · subst h; simp [mapHas, mapLookup_mapSet_self]
  · simp [mapHas, mapLookup_mapSet_ne _ _ _ _ h, h]

theorem mapHas_mapSet_self (l : List (α × β)) (k : α) (v : β) :
    mapHas (mapSet l k v) k = true := by
  simp [mapHas, mapLookup_mapSet_self]

theorem mapLookup_mapDelete_ne (l : List (α × β)) (k k' : α)
    (h : ¬ k = k') : mapLookup (mapDelete l k) k' = mapLookup l k' := by
  induction l with
  | nil => simp [mapDelete]
  | cons p rest ih =>
    obtain ⟨a, b⟩ := p
    by_cases hak : a = k
    · subst hak
      have : ¬ a = k' := h
      simp [mapDelete, mapLookup, this]
    · simp [mapDelete, mapLookup, hak, ih]

theorem mapLookup_isSome_of_eq_some (l : List (α × β)) (k : α) (v : β)
    (h : mapLookup l k = some v) : mapHas l k = true := by
  simp [mapHas, h]

/- ### Lemmas about `removeLastBy` -/

theorem removeLastBy_eq_none_iff (userId : String) (l : List Stroke) :
    removeLastBy userId l = none ↔ ∀ s ∈ l, s.data.userId ≠ userId := by
  induction l with
  | nil => simp [removeLastBy]
  | cons hd rest ih =>
    simp only [removeLastBy]
    cases hrec : removeLastBy userId rest with
    | some p =>
      simp only [hrec]
      constructor
      · intro h; cases h
      · intro h
        exfalso
        have : removeLastBy userId rest = none :=
          (ih).2 (fun s hs => h s (List.mem_cons_of_mem _ hs))
        rw [this] at hrec; cases hrec
    | none =>
      simp only [hrec]
      by_cases howner : hd.data.userId = userId
      · simp only [howner, if_pos rfl]
        constructor
        · intro h; cases h
        · intro h
          exact absurd howner (h hd (List.mem_cons_self _ _))
      · simp only [if_neg howner]
        constructor
        · intro _ s hs
          rcases List.mem_cons.1 hs with h | h
          · subst h; exact howner
          · exact (ih.1 hrec) s h
        · intro _; trivial

theorem removeLastBy_eq_some (userId : String) (l : List Stroke)
    (s : Stroke) (l' : List Stroke)
    (h : removeLastBy userId l = some (s, l')) :
    s.data.userId = userId ∧
      ∃ A B, l = A ++ s :: B ∧ l' = A ++ B ∧
        ∀ t ∈ B, t.data.userId ≠ userId := by
  induction l generalizing s l' with
  | nil => simp [removeLastBy] at h
  | cons hd rest ih =>
    simp only [removeLastBy] at h
    cases hrec : removeLastBy userId rest with
    | some p =>
      obtain ⟨t, rest'⟩ := p
      rw [hrec] at h
      have h2 := Option.some.inj h
      have hst : t = s := congrArg Prod.fst h2
      have hl' : hd :: rest' = l' := congrArg Prod.snd h2
      subst hst
      subst hl'
      obtain ⟨howner, A, B, hsplit, hrem, hB⟩ := ih _ _ hrec
      exact ⟨howner, hd :: A, B, by simp [hsplit], by simp [hrem], hB⟩
    | none =>
      rw [hrec] at h
      by_cases howner : hd.data.userId = userId
      · rw [if_pos howner] at h
        have h2 := Option.some.inj h
        have hst : hd = s := congrArg Prod.fst h2
        have hl' : rest = l' := congrArg Prod.snd h2
        subst hst
        subst hl'
        exact ⟨howner, [], rest, by simp, by simp,
          (removeLastBy_eq_none_iff userId rest).1 hrec⟩
      · rw [if_neg howner] at h
        cases h

/- ### Lemmas about `initRoom` -/

theorem initRoom_of_has (roomId : String) (st : SMState)
    (h : mapHas st.roomStrokes roomId = true) : initRoom roomId st = st := by
  simp [initRoom, h]

theorem roomHist_initRoom (roomId r : String) (st : SMState) :
    roomHist (initRoom roomId st) r = roomHist st r := by
  unfold initRoom
  by_cases h : mapHas st.roomStrokes roomId
  · simp [h]
  · simp only [h, Bool.false_eq_true, if_false]
    by_cases hr : roomId = r
    · subst hr
      have : mapLookup st.roomStrokes roomId = none := by
        cases hlk : mapLookup st.roomStrokes roomId with
        | none => rfl
        | some v => exact absurd (by simp [mapHas, hlk]) h
      simp [roomHist, mapLookup_mapSet_self, this]
    · simp [roomHist, mapLookup_mapSet_ne _ _ _ _ hr]

theorem mapHas_initRoom_self (roomId : String) (st : SMState) :
    mapHas (initRoom roomId st).roomStrokes roomId = true := by
  unfold initRoom
  by_cases h : mapHas st.roomStrokes roomId
  · simp [h]
  · simp [h, mapHas_mapSet_self]

theorem strokeIdCounter_initRoom (roomId : String) (st : SMState) :
    (initRoom roomId st).strokeIdCounter = st.strokeIdCounter := by
  unfold initRoom
  by_cases h : mapHas st.roomStrokes roomId <;> simp [h]

theorem mapLookup_eq_none_of_not_has (l : List (α × β)) (k : α)
    (h : ¬ mapHas l k = true) : mapLookup l k = none := by
  cases hlk : mapLookup l k with
  | none => rfl
  | some v => exact absurd (by simp [mapHas, hlk]) h

theorem getD_lookup_initRoom (roomId r : String) (st : SMState) :
    (mapLookup (initRoom roomId st).roomStrokes r).getD [] = roomHist st r :=
  roomHist_initRoom roomId r st

/- ### Characterization of `addStroke` -/

theorem addStroke_fst (roomId : String) (d : StrokeData) (now : Nat)
    (st : SMState) :
    (addStroke roomId d now st).1 =
      ⟨⟨now, st.strokeIdCounter + 1⟩, d, now⟩ := by
  unfold addStroke generateStrokeId
  simp [strokeIdCounter_initRoom]

theorem addStroke_counter (roomId : String) (d : StrokeData) (now : Nat)
    (st : SMState) :
    (addStroke roomId d now st).2.strokeIdCounter = st.strokeIdCounter + 1 := by
  unfold addStroke generateStrokeId
  simp only []
  by_cases hu :
      mapHas ((mapLookup (initRoom roomId st).redoStacks roomId).getD [])
        d.userId <;>
    simp [hu, strokeIdCounter_initRoom]

theorem roomHist_addStroke_self (roomId : String) (d : StrokeData) (now : Nat)
    (st : SMState) :
    roomHist (addStroke roomId d now st).2 roomId =
      roomHist st roomId ++ [(addStroke roomId d now st).1] := by
  unfold addStroke generateStrokeId
  by_cases hu :
      mapHas ((mapLookup (initRoom roomId st).redoStacks roomId).getD [])
        d.userId <;>
    simp [hu, roomHist, mapLookup_mapSet_self, getD_lookup_initRoom,
      strokeIdCounter_initRoom]

theorem userRedo_addStroke_self (roomId : String) (d : StrokeData) (now : Nat)
    (st : SMState) :
    userRedo (addStroke roomId d now st).2 roomId d.userId = [] := by
  unfold addStroke generateStrokeId
  by_cases hu :
      mapHas ((mapLookup (initRoom roomId st).redoStacks roomId).getD [])
        d.userId
  · simp [hu, userRedo, mapLookup_mapSet_self]
  · have hnone :
        mapLookup ((mapLookup (initRoom roomId st).redoStacks roomId).getD [])
          d.userId = none :=
      mapLookup_eq_none_of_not_has _ _ (by simpa using hu)
    simp [hu, userRedo, hnone]

/- ### Characterization of `undoStroke` -/

theorem undoStroke_eq_none (roomId userId : String) (st : SMState)
    (h : removeLastBy userId (roomHist st roomId) = none) :
    undoStroke roomId userId st = (none, initRoom roomId st) := by
  simp only [undoStroke]
  rw [getD_lookup_initRoom, h]

theorem undoStroke_eq_some (roomId userId : String) (st : SMState)
    (s : Stroke) (strokes' : List Stroke)
    (hhas : mapHas st.roomStrokes roomId = true)
    (h : removeLastBy userId (roomHist st roomId) = some (s, strokes')) :
    undoStroke roomId userId st =
      (some s,
        { st with
          roomStrokes := mapSet st.roomStrokes roomId strokes'
          redoStacks :=
            mapSet st.redoStacks roomId
              (mapSet ((mapLookup st.redoStacks roomId).getD []) userId
                (userRedo st roomId userId ++ [s])) }) := by
  simp only [undoStroke]
  rw [getD_lookup_initRoom, initRoom_of_has _ _ hhas, h]
  rfl

/- ### Characterization of `redoStroke` -/

theorem redoStroke_eq_none (roomId userId : String) (st : SMState)
    (h : userRedo st roomId userId = []) :
    redoStroke roomId userId st = (none, initRoom roomId st) := by
  simp only [redoStroke]
  by_cases hhas : mapHas st.roomStrokes roomId
  · rw [initRoom_of_has _ _ hhas]
    cases hstk :
        mapLookup ((mapLookup st.redoStacks roomId).getD []) userId with
    | none => simp [hstk]
    | some stk =>
      have hempty : stk = [] := by
        have := h
        unfold userRedo at this
        rw [hstk] at this
        simpa using this
      subst hempty
      simp [hstk]
  · unfold initRoom
    simp only [hhas, Bool.false_eq_true, if_false]
    simp [mapLookup_mapSet_self, mapLookup]

theorem redoStroke_eq_some (roomId userId : String) (st : SMState)
    (stk : List Stroke) (s : Stroke)
    (hhas : mapHas st.roomStrokes roomId = true)
    (hstk : mapLookup ((mapLookup st.redoStacks roomId).getD []) userId =
      some (stk ++ [s])) :
    redoStroke roomId userId st =
      (some s,
        { st with
          roomStrokes := mapSet st.roomStrokes roomId (roomHist st roomId ++ [s])
          redoStacks :=
            mapSet st.redoStacks roomId
              (mapSet ((mapLookup st.redoStacks roomId).getD []) userId stk) }) := by
  simp only [redoStroke]
  rw [initRoom_of_has _ _ hhas, hstk]
  simp [List.getLast?_concat, List.dropLast_concat, roomHist]

/- ### Claim C1 -/

/-- C1: `undoStroke` removes exactly the requester's own most recent
stroke still present in the history and pushes it onto the requester's
redo stack; it never removes a stroke of a different owner (all other
strokes keep their relative positions: the history splits as
`A ++ s :: B` and becomes `A ++ B`), and when the requester owns no
stroke in the history it returns `none` and leaves the history
unchanged. -/
theorem c1_undo_strictly_per_owner (st : SMState) (roomId userId : String) :
    ((∀ s ∈ roomHist st roomId, s.data.userId ≠ userId) →
        (undoStroke roomId userId st).1 = none ∧
        roomHist (undoStroke roomId userId st).2 roomId = roomHist st roomId) ∧
    (∀ s, (undoStroke roomId userId st).1 = some s →
        s.data.userId = userId ∧
        ∃ A B, roomHist st roomId = A ++ s :: B ∧
          (∀ t ∈ B, t.data.userId ≠ userId) ∧
          roomHist (undoStroke roomId userId st).2 roomId = A ++ B ∧
          userRedo (undoStroke roomId userId st).2 roomId userId =
            userRedo st roomId userId ++ [s]) := by
  constructor
  · intro hnone
    have h := (removeLastBy_eq_none_iff userId (roomHist st roomId)).2 hnone
    rw [undoStroke_eq_none _ _ _ h]
    exact ⟨rfl, roomHist_initRoom _ _ _⟩
  · intro s hs
    cases hrem : removeLastBy userId (roomHist st roomId) with
    | none =>
      rw [undoStroke_eq_none _ _ _ hrem] at hs
      cases hs
    | some p =>
      obtain ⟨t, strokes'⟩ := p
      have hhas : mapHas st.roomStrokes roomId = true := by
        by_contra hh
        have hnil : roomHist st roomId = [] := by
          unfold roomHist
          rw [mapLookup_eq_none_of_not_has _ _ hh]
          rfl
        rw [hnil] at hrem
        simp [removeLastBy] at hrem
      rw [undoStroke_eq_some _ _ _ _ _ hhas hrem] at hs
      have hts : t = s := by simpa using hs
      subst hts
      obtain ⟨howner, A, B, hsplit, hrem', hB⟩ :=
        removeLastBy_eq_some _ _ _ _ hrem
      refine ⟨howner, A, B, hsplit, hB, ?_, ?_⟩
      · rw [undoStroke_eq_some _ _ _ _ _ hhas hrem, ← hrem']
        simp [roomHist, mapLookup_mapSet_self]
      · rw [undoStroke_eq_some _ _ _ _ _ hhas hrem]
        simp [userRedo, mapLookup_mapSet_self]

/-- Witness for C1: in a history holding a stroke of `u1` and a stroke
of `u2`, an undo by the unrepresented user `u3` is a no-op, and an undo
by `u1` removes exactly `u1`'s stroke. -/
theorem c1_undo_strictly_per_owner_witness :
    ((undoStroke "main" "u3" sampleSM).1 = none ∧
      roomHist (undoStroke "main" "u3" sampleSM).2 "main" =
        roomHist sampleSM "main") ∧
    (sampleStroke1.data.userId = "u1" ∧
      ∃ A B, roomHist sampleSM "main" = A ++ sampleStroke1 :: B ∧
        (∀ t ∈ B, t.data.userId ≠ "u1") ∧
        roomHist (undoStroke "main" "u1" sampleSM).2 "main" = A ++ B ∧
        userRedo (undoStroke "main" "u1" sampleSM).2 "main" "u1" =
          userRedo sampleSM "main" "u1" ++ [sampleStroke1]) :=
  ⟨(c1_undo_strictly_per_owner sampleSM "main" "u3").1 (by decide),
    (c1_undo_strictly_per_owner sampleSM "main" "u1").2 sampleStroke1
      (by decide)⟩

/- ### Claim C5 -/

/-- C5: `addStroke` appends a stroke carrying the freshly generated
identifier (counter bumped to `strokeIdCounter + 1`) and the creation
timestamp to the end of the room's history, returns that finalized
stroke, and leaves the committer's redo stack empty, so an immediately
following `redoStroke` returns `none` and changes no history. -/
theorem c5_commit_appends_and_clears_redo (st : SMState) (roomId : String)
    (d : StrokeData) (now : Nat) :
    (addStroke roomId d now st).1 =
        ⟨⟨now, st.strokeIdCounter + 1⟩, d, now⟩ ∧
    roomHist (addStroke roomId d now st).2 roomId =
        roomHist st roomId ++ [(addStroke roomId d now st).1] ∧
    userRedo (addStroke roomId d now st).2 roomId d.userId = [] ∧
    (redoStroke roomId d.userId (addStroke roomId d now st).2).1 = none ∧
    roomHist (redoStroke roomId d.userId (addStroke roomId d now st).2).2
        roomId =
      roomHist (addStroke roomId d now st).2 roomId := by
  refine ⟨addStroke_fst _ _ _ _, roomHist_addStroke_self _ _ _ _,
    userRedo_addStroke_self _ _ _ _, ?_, ?_⟩
  · rw [redoStroke_eq_none _ _ _ (userRedo_addStroke_self _ _ _ _)]
  · rw [redoStroke_eq_none _ _ _ (userRedo_addStroke_self _ _ _ _)]
    exact roomHist_initRoom _ _ _

/- ### Claim C6 -/

/-- C6: with a non-empty redo stack (in an initialized room),
`redoStroke` pops the most recently undone stroke and appends that very
stroke, unchanged, at the current end of the history; consequently an
undo followed immediately by a redo restores the identical stroke at
the history's tail. -/
theorem c6_redo_reappends_at_tail (st : SMState) (roomId userId : String) :
    (∀ stk s, mapHas st.roomStrokes roomId = true →
        userRedo st roomId userId = stk ++ [s] →
        (redoStroke roomId userId st).1 = some s ∧
        roomHist (redoStroke roomId userId st).2 roomId =
          roomHist st roomId ++ [s] ∧
        userRedo (redoStroke roomId userId st).2 roomId userId = stk) ∧
    (∀ s st₁, undoStroke roomId userId st = (some s, st₁) →
        (redoStroke roomId userId st₁).1 = some s ∧
        roomHist (redoStroke roomId userId st₁).2 roomId =
          roomHist st₁ roomId ++ [s]) := by
  constructor
  · intro stk s hhas hredo
    have hstk :
        mapLookup ((mapLookup st.redoStacks roomId).getD []) userId =
          some (stk ++ [s]) := by
      unfold userRedo at hredo
      cases hlk :
          mapLookup ((mapLookup st.redoStacks roomId).getD []) userId with
      | none => rw [hlk] at hredo; simp at hredo
      | some l => rw [hlk] at hredo; simp at hredo; rw [hredo]
    rw [redoStroke_eq_some _ _ _ _ _ hhas hstk]
    refine ⟨rfl, ?_, ?_⟩
    · simp [roomHist, mapLookup_mapSet_self]
    · simp [userRedo, mapLookup_mapSet_self]
  · intro s st₁ h
    cases hrem : removeLastBy userId (roomHist st roomId) with
    | none =>
      rw [undoStroke_eq_none _ _ _ hrem] at h
      simp at h
    | some p =>
      obtain ⟨t, strokes'⟩ := p
      have hhas : mapHas st.roomStrokes roomId = true := by
        by_contra hh
        have hnil : roomHist st roomId = [] := by
          unfold roomHist
          rw [mapLookup_eq_none_of_not_has _ _ hh]
          rfl
        rw [hnil] at hrem
        simp [removeLastBy] at hrem
      rw [undoStroke_eq_some _ _ _ _ _ hhas hrem, Prod.mk.injEq] at h
      obtain ⟨h1, h2⟩ := h
      have hts : t = s := by simpa using h1
      subst hts
      subst h2
      have hhas₁ :
          mapHas (mapSet st.roomStrokes roomId strokes') roomId = true :=
        mapHas_mapSet_self _ _ _
      have hstk₁ :
          mapLookup
              ((mapLookup
                  (mapSet st.redoStacks roomId
                    (mapSet ((mapLookup st.redoStacks roomId).getD [])
                      userId (userRedo st roomId userId ++ [t]))) roomId).getD [])
              userId =
            some (userRedo st roomId userId ++ [t]) := by
        rw [mapLookup_mapSet_self]
        simp [mapLookup_mapSet_self]
      rw [redoStroke_eq_some _ _ _ (userRedo st roomId userId) t hhas₁ hstk₁]
      refine ⟨rfl, ?_⟩
      simp [roomHist, mapLookup_mapSet_self]

/-- Witness for C6: with `u1`'s redo stack holding the undone stroke,
redo restores exactly that stroke at the tail; and the undo-then-redo
composition on the two-stroke store restores `sampleStroke1` at the
tail. -/
theorem c6_redo_reappends_at_tail_witness :
    ((redoStroke "main" "u1" sampleSMRedo).1 = some sampleStroke1 ∧
      roomHist (redoStroke "main" "u1" sampleSMRedo).2 "main" =
        roomHist sampleSMRedo "main" ++ [sampleStroke1] ∧
      userRedo (redoStroke "main" "u1" sampleSMRedo).2 "main" "u1" = []) ∧
    ((redoStroke "main" "u1" (undoStroke "main" "u1" sampleSM).2).1 =
        some sampleStroke1 ∧
      roomHist (redoStroke "main" "u1"
            (undoStroke "main" "u1" sampleSM).2).2 "main" =
        roomHist (undoStroke "main" "u1" sampleSM).2 "main" ++
          [sampleStroke1]) :=
  ⟨(c6_redo_reappends_at_tail sampleSMRedo "main" "u1").1 [] sampleStroke1
      (by decide) (by decide),
    (c6_redo_reappends_at_tail sampleSM "main" "u1").2 sampleStroke1
      (undoStroke "main" "u1" sampleSM).2 (by decide)⟩

/- ### Claim C7 -/

/-- C7: after `clearStrokes` the room's history is empty and every
participant's redo stack for that room is empty. -/
theorem c7_clear_empties_room (st : SMState) (roomId : String) :
    roomHist (clearStrokes roomId st) roomId = [] ∧
    ∀ userId, userRedo (clearStrokes roomId st) roomId userId = [] := by
  unfold clearStrokes
  constructor
  · simp [roomHist, mapLookup_mapSet_self]
  · intro u
    simp [userRedo, mapLookup_mapSet_self, mapLookup]

/- ### Claim C8 -/

/-- C8: when an undo finds no stroke owned by the requester, or a redo
finds an empty redo stack, the store returns a negative result, the
server state is unchanged, and the handler broadcasts nothing.  The
room-initialized hypothesis reflects every reachable server state: the
connection handler runs `getStrokes` (which initializes the room)
before any `undo`/`redo` can arrive. -/
theorem c8_noop_produces_no_broadcast (st : ServerState) (socketId : String)
    (hhas : mapHas st.sm.roomStrokes defaultRoom = true) :
    ((∀ s ∈ roomHist st.sm defaultRoom, s.data.userId ≠ socketId) →
        handleUndo socketId st = (st, [])) ∧
    (userRedo st.sm defaultRoom socketId = [] →
        handleRedo socketId st = (st, [])) := by
  constructor
  · intro h
    have hrem :=
      (removeLastBy_eq_none_iff socketId (roomHist st.sm defaultRoom)).2 h
    simp only [handleUndo]
    rw [undoStroke_eq_none _ _ _ hrem, initRoom_of_has _ _ hhas]
  · intro h
    simp only [handleRedo]
    rw [redoStroke_eq_none _ _ _ h, initRoom_of_has _ _ hhas]

/-- Witness for C8: on the sample server, an undo by the unrepresented
user `u3` and a redo by `u1` (whose redo stack is empty) both leave the
state untouched and broadcast nothing. -/
theorem c8_noop_produces_no_broadcast_witness :
    handleUndo "u3" sampleServer = (sampleServer, []) ∧
    handleRedo "u1" sampleServer = (sampleServer, []) :=
  ⟨(c8_noop_produces_no_broadcast sampleServer "u3" (by decide)).1 (by decide),
    (c8_noop_produces_no_broadcast sampleServer "u1" (by decide)).2 (by decide)⟩

/- ### Further characterization lemmas used by the invariants -/

theorem mapHas_of_removeLastBy_some (roomId userId : String) (st : SMState)
    (p : Stroke × List Stroke)
    (h : removeLastBy userId (roomHist st roomId) = some p) :
    mapHas st.roomStrokes roomId = true := by
  by_contra hh
  have hnil : roomHist st roomId = [] := by
    unfold roomHist
    rw [mapLookup_eq_none_of_not_has _ _ hh]
    rfl
  rw [hnil] at h
  simp [removeLastBy] at h

theorem redoStroke_of_not_has (roomId userId : String) (st : SMState)
    (hh : ¬ mapHas st.roomStrokes roomId = true) :
    redoStroke roomId userId st = (none, initRoom roomId st) := by
  simp only [redoStroke]
  unfold initRoom
  simp only [hh, Bool.false_eq_true, if_false]
  simp [mapLookup_mapSet_self, mapLookup]

theorem mapHas_redoStacks_initRoom_self (roomId : String) (st : SMState)
    (h : roomKeyInv st) :
    mapHas (initRoom roomId st).redoStacks roomId = true := by
  have h2 : roomKeyInv (initRoom roomId st) := by
    intro r
    unfold initRoom
    by_cases hh : mapHas st.roomStrokes roomId
    · simp [hh, h r]
    · simp only [hh, Bool.false_eq_true, if_false]
      simp [mapHas_mapSet, h r]
  rw [← h2 roomId]
  exact mapHas_initRoom_self _ _

theorem roomKeyInv_initRoom (roomId : String) (st : SMState)
    (h : roomKeyInv st) : roomKeyInv (initRoom roomId st) := by
  intro r
  unfold initRoom
  by_cases hh : mapHas st.roomStrokes roomId
  · simp [hh, h r]
  · simp only [hh, Bool.false_eq_true, if_false]
    simp [mapHas_mapSet, h r]

/- ### Claim C10 -/

/-- C10: every operation of the state manager keeps a room key present
in the stroke-history map exactly when it is present in the redo-stacks
map — both for a single step from any state satisfying the invariant,
and along every run from the freshly constructed manager. -/
theorem c10_room_keys_in_both_maps :
    (∀ op st, roomKeyInv st → roomKeyInv (applySMOp op st)) ∧
    (∀ ops, roomKeyInv (applySMOps ops SMState.initial)) := by
  have hstep : ∀ op st, roomKeyInv st → roomKeyInv (applySMOp op st) := by
    intro op st h
    cases op with
    | add roomId d now =>
      have h2 : roomKeyInv (initRoom roomId st) := roomKeyInv_initRoom _ _ h
      have hhasrd : mapHas (initRoom roomId st).redoStacks roomId = true :=
        mapHas_redoStacks_initRoom_self _ _ h
      simp only [applySMOp, addStroke, generateStrokeId]
      by_cases hu :
          mapHas ((mapLookup (initRoom roomId st).redoStacks roomId).getD [])
            d.userId
      · simp only [hu, if_true]
        intro r
        by_cases hr : roomId = r
        · subst hr
          simp [mapHas_mapSet]
        · simp [mapHas_mapSet, hr, h2 r]
      · simp only [hu, Bool.false_eq_true, if_false]
        intro r
        by_cases hr : roomId = r
        · subst hr
          simp [mapHas_mapSet, hhasrd]
        · simp [mapHas_mapSet, hr, h2 r]
    | get roomId =>
      simp only [applySMOp, getStrokes]
      exact roomKeyInv_initRoom _ _ h
    | undo roomId userId =>
      simp only [applySMOp]
      cases hrem : removeLastBy userId (roomHist st roomId) with
      | none =>
        rw [undoStroke_eq_none _ _ _ hrem]
        exact roomKeyInv_initRoom _ _ h
      | some p =>
        obtain ⟨t, strokes'⟩ := p
        have hhas := mapHas_of_removeLastBy_some _ _ _ _ hrem
        rw [undoStroke_eq_some _ _ _ _ _ hhas hrem]
        intro r
        by_cases hr : roomId = r
        · subst hr
          simp [mapHas_mapSet]
        · simp [mapHas_mapSet, hr, h r]
    | redo roomId userId =>
      simp only [applySMOp]
      by_cases hhas : mapHas st.roomStrokes roomId
      · cases hstk :
            mapLookup ((mapLookup st.redoStacks roomId).getD []) userId with
        | none =>
          have hempty : userRedo st roomId userId = [] := by
            unfold userRedo
            rw [hstk]
            rfl
          rw [redoStroke_eq_none _ _ _ hempty]
          exact roomKeyInv_initRoom _ _ h
        | some stk =>
          rcases List.eq_nil_or_concat stk with rfl | ⟨stk', s, rfl⟩
          · have hempty : userRedo st roomId userId = [] := by
              unfold userRedo
              rw [hstk]
              rfl
            rw [redoStroke_eq_none _ _ _ hempty]
            exact roomKeyInv_initRoom _ _ h
          · rw [List.concat_eq_append] at hstk
            rw [redoStroke_eq_some _ _ _ _ _ hhas hstk]
            intro r
            by_cases hr : roomId = r
            · subst hr
              simp [mapHas_mapSet]
            · simp [mapHas_mapSet, hr, h r]
      · rw [redoStroke_of_not_has _ _ _ hhas]
        exact roomKeyInv_initRoom _ _ h
    | clear roomId =>
      have h2 : roomKeyInv (initRoom roomId st) := roomKeyInv_initRoom _ _ h
      simp only [applySMOp, clearStrokes]
      intro r
      by_cases hr : roomId = r
      · subst hr
        simp [mapHas_mapSet]
      · simp [mapHas_mapSet, hr, h2 r]
    | remove roomId sid =>
      have h2 : roomKeyInv (initRoom roomId st) := roomKeyInv_initRoom _ _ h
      have hhasrd : mapHas (initRoom roomId st).redoStacks roomId = true :=
        mapHas_redoStacks_initRoom_self _ _ h
      simp only [applySMOp, removeStroke]
      cases hfind :
          ((mapLookup (initRoom roomId st).roomStrokes roomId).getD
              []).findIdx? (fun s => s.id = sid) with
      | none =>
        simp only [hfind]
        exact h2
      | some i =>
        simp only [hfind]
        intro r
        by_cases hr : roomId = r
        · subst hr
          simp [mapHas_mapSet, hhasrd]
        · simp [mapHas_mapSet, hr, h2 r]
    | count roomId =>
      simp only [applySMOp, getStrokeCount]
      exact roomKeyInv_initRoom _ _ h
    | cleanup roomId userId =>
      simp only [applySMOp, cleanupUserHistory]
      cases hlk : mapLookup st.redoStacks roomId with
      | none =>
        simp only [hlk]
        exact h
      | some m =>
        simp only [hlk]
        intro r
        by_cases hr : roomId = r
        · subst hr
          have : mapHas st.redoStacks roomId = true := by
            simp [mapHas, hlk]
          simp [mapHas_mapSet, h roomId, this]
        · simp [mapHas_mapSet, hr, h r]
    | userStrokes roomId userId =>
      simp only [applySMOp, getUserStrokes]
      exact roomKeyInv_initRoom _ _ h
  refine ⟨hstep, ?_⟩
  have hall : ∀ ops st, roomKeyInv st → roomKeyInv (applySMOps ops st) := by
    intro ops
    induction ops with
    | nil => intro st h; exact h
    | cons op rest ih => intro st h; exact ih _ (hstep op st h)
  intro ops
  exact hall ops SMState.initial (fun _ => rfl)

/-- Witness for C10: one step of each flavor on the sample store keeps
the key sets of the two maps equal. -/
theorem c10_room_keys_in_both_maps_witness :
    roomKeyInv (applySMOp (SMOp.clear "other") sampleSM) ∧
    roomKeyInv (applySMOps [SMOp.add "main" sampleData1 7,
      SMOp.undo "main" "u1", SMOp.cleanup "main" "u1"] SMState.initial) := by
  have hsample : roomKeyInv sampleSM := by
    intro r
    by_cases hr : "main" = r <;> simp [sampleSM, mapHas, mapLookup, hr]
  exact ⟨c10_room_keys_in_both_maps.1 (SMOp.clear "other") sampleSM hsample,
    c10_room_keys_in_both_maps.2 _⟩

/- ### Claim C3 -/

/-- C3: the claim fails on the code.  `stroke_complete` ignores the
finalized stroke returned by `addStroke` and broadcasts the raw
`strokeData` object, which carries no `id` and no `createdAt` key: at a
concrete commit, the history entry holds the assigned identifier and
creation timestamp, yet the lone `stroke_saved` broadcast equals the
bare `strokeData` on the wire and differs from the wire view of every
persisted stroke. -/
theorem c3_broadcast_is_not_finalized_stroke :
    (handleStrokeComplete "u1" "HappyArtist1"
          ⟨[⟨0, 0⟩, ⟨1, 1⟩], "#000000", 3, "brush"⟩ 7
          ⟨RMState.initial, SMState.initial⟩).2 =
      [(Fanout.toRoom, ServerMsg.strokeSaved
          ⟨none, ⟨[⟨0, 0⟩, ⟨1, 1⟩], "#000000", 3, "brush", "u1",
            "HappyArtist1", 7⟩, none⟩)] ∧
    roomHist (handleStrokeComplete "u1" "HappyArtist1"
          ⟨[⟨0, 0⟩, ⟨1, 1⟩], "#000000", 3, "brush"⟩ 7
          ⟨RMState.initial, SMState.initial⟩).1.sm defaultRoom =
      [⟨⟨7, 1⟩, ⟨[⟨0, 0⟩, ⟨1, 1⟩], "#000000", 3, "brush", "u1",
          "HappyArtist1", 7⟩, 7⟩] ∧
    ∀ s ∈ roomHist (handleStrokeComplete "u1" "HappyArtist1"
          ⟨[⟨0, 0⟩, ⟨1, 1⟩], "#000000", 3, "brush"⟩ 7
          ⟨RMState.initial, SMState.initial⟩).1.sm defaultRoom,
      ((handleStrokeComplete "u1" "HappyArtist1"
            ⟨[⟨0, 0⟩, ⟨1, 1⟩], "#000000", 3, "brush"⟩ 7
            ⟨RMState.initial, SMState.initial⟩).2.map Prod.snd) ≠
        [ServerMsg.strokeSaved s.toWire] := by
  decide

/- ### Claim C4 -/

/-- C4 counterexample: an inbound `stroke_complete` with an empty point
sequence is **not** rejected at the server boundary — the store gains a
history entry and a `stroke_saved` message is broadcast. -/
theorem c4_short_commit_reaches_store_counterexample :
    roomHist (handleStrokeComplete "u1" "HappyArtist1"
          ⟨[], "#000000", 3, "brush"⟩ 7
          ⟨RMState.initial, SMState.initial⟩).1.sm defaultRoom ≠ [] ∧
    (handleStrokeComplete "u1" "HappyArtist1" ⟨[], "#000000", 3, "brush"⟩ 7
          ⟨RMState.initial, SMState.initial⟩).2 ≠ [] := by
  decide

/-- C4 (amended): strokes with fewer than two points are dropped at the
client boundary only — `stopDrawing` emits no commit for them, and every
commit it does emit carries the full captured path of at least two
points; the server boundary performs no point-count validation (see the
counterexample). -/
theorem c4_client_boundary_rejects_short_strokes (cst : CanvasState) :
    (cst.currentPath.length < 2 → (stopDrawing cst).2 = none) ∧
    (∀ out, (stopDrawing cst).2 = some out →
        2 ≤ out.points.length ∧ out.points = cst.currentPath) := by
  constructor
  · intro h
    unfold stopDrawing
    by_cases hd : cst.isDrawing
    · have hl : ¬ cst.currentPath.length > 1 := by omega
      simp [hd, hl]
    · simp [hd]
  · intro out h
    unfold stopDrawing at h
    by_cases hd : cst.isDrawing
    · by_cases hl : cst.currentPath.length > 1
      · cases hcs : cst.currentStroke with
        | none => simp [hd, hl, hcs] at h
        | some cs =>
          simp [hd, hl, hcs] at h
          constructor
          · rw [← h]
            simpa using hl
          · rw [← h]
      · simp [hd, hl] at h
    · simp [hd] at h

/-- Witness for C4 (amended): a one-point path produces no emission, and
a two-point path emits a commit carrying exactly those two points. -/
theorem c4_client_boundary_rejects_short_strokes_witness :
    (stopDrawing ⟨true, [⟨0, 0⟩], some ⟨"#000000", 3, "brush"⟩⟩).2 = none ∧
    (2 ≤ (⟨[⟨0, 0⟩, ⟨1, 1⟩], "#000000", 3, "brush"⟩ : StrokeInput).points.length ∧
      (⟨[⟨0, 0⟩, ⟨1, 1⟩], "#000000", 3, "brush"⟩ : StrokeInput).points =
        [⟨0, 0⟩, ⟨1, 1⟩]) :=
  ⟨(c4_client_boundary_rejects_short_strokes
      ⟨true, [⟨0, 0⟩], some ⟨"#000000", 3, "brush"⟩⟩).1 (by decide),
    (c4_client_boundary_rejects_short_strokes
      ⟨true, [⟨0, 0⟩, ⟨1, 1⟩], some ⟨"#000000", 3, "brush"⟩⟩).2
      ⟨[⟨0, 0⟩, ⟨1, 1⟩], "#000000", 3, "brush"⟩ (by decide)⟩

/- ### Claim C2 -/

/-- C2 counterexample: `u1` is the sole member and two strokes are in
the history; after `u1` disconnects the room is gone from the registry,
yet the history is non-empty and a subsequent joiner's `init` snapshot
carries both previously committed strokes instead of an empty one. -/
theorem c2_rejoin_sees_old_history_counterexample :
    roomExists defaultRoom
        (handleDisconnect "u1" "HappyArtist1" sampleServer).1.rm = false ∧
    roomHist (handleDisconnect "u1" "HappyArtist1" sampleServer).1.sm
        defaultRoom ≠ [] ∧
    (handleConnection sampleUser2
        (handleDisconnect "u1" "HappyArtist1" sampleServer).1).2 =
      [(Fanout.toSocket, ServerMsg.init "u2" "SwiftPainter2" "#3498db"
          [sampleStroke1, sampleStroke2] [sampleUser2]),
        (Fanout.toOthers, ServerMsg.userJoined sampleUser2)] := by
  decide

theorem roomHist_cleanupUserHistory (roomId userId r : String)
    (st : SMState) :
    roomHist (cleanupUserHistory roomId userId st) r = roomHist st r := by
  unfold cleanupUserHistory
  cases h : mapLookup st.redoStacks roomId <;> simp [h, roomHist]

/-- C2 (amended): after the last member leaves, the room is absent from
the registry's existence check, but the state manager retains the
room's history unchanged (disconnect discards only the departing user's
redo stack), and a participant who subsequently joins receives exactly
that retained history — every stroke committed before the room emptied
— in its `init` snapshot. -/
theorem c2_amended_rejoin_receives_retained_history (sm : SMState)
    (userId username : String) (u uNew : UserData) :
    roomExists defaultRoom
        (handleDisconnect userId username
          ⟨⟨[(defaultRoom, [(userId, u)])]⟩, sm⟩).1.rm = false ∧
    roomHist (handleDisconnect userId username
          ⟨⟨[(defaultRoom, [(userId, u)])]⟩, sm⟩).1.sm defaultRoom =
      roomHist sm defaultRoom ∧
    (handleConnection uNew
        (handleDisconnect userId username
          ⟨⟨[(defaultRoom, [(userId, u)])]⟩, sm⟩).1).2 =
      [(Fanout.toSocket, ServerMsg.init uNew.id uNew.username uNew.color
          (roomHist sm defaultRoom) [uNew]),
        (Fanout.toOthers, ServerMsg.userJoined uNew)] := by
  have hdisc :
      (handleDisconnect userId username
          ⟨⟨[(defaultRoom, [(userId, u)])]⟩, sm⟩).1 =
        ⟨⟨[]⟩, cleanupUserHistory defaultRoom userId sm⟩ := by
    simp [handleDisconnect, removeUser, mapLookup, mapDelete, List.isEmpty]
  rw [hdisc]
  refine ⟨rfl, roomHist_cleanupUserHistory _ _ _ _, ?_⟩
  have hjoin :
      getUsers defaultRoom (addUser defaultRoom uNew ⟨[]⟩) = [uNew] := by
    simp [addUser, createRoom, getUsers, mapHas, mapLookup, mapSet]
  simp only [handleConnection, hjoin]
  rw [show (getStrokes defaultRoom (cleanupUserHistory defaultRoom userId sm)).1 =
      roomHist sm defaultRoom from ?_]
  simp only [getStrokes]
  rw [getD_lookup_initRoom]
  exact roomHist_cleanupUserHistory _ _ _ _

/- ### Multiset accounting for the identifier-uniqueness invariant -/

theorem msum_cons (F : β → Multiset Nat) (a : α) (b : β) (l : List (α × β)) :
    msum F ((a, b) :: l) = F b + msum F l := by
  simp only [msum, List.map_cons, List.sum_cons]

theorem msum_mapSet_getD (F : β → Multiset Nat) (dflt : β) (hF : F dflt = 0)
    (l : List (α × β)) (k : α) (v : β) :
    msum F (mapSet l k v) + F ((mapLookup l k).getD dflt) =
      msum F l + F v := by
  induction l with
  | nil => simp [mapSet, mapLookup, msum, hF]
  | cons p rest ih =>
    obtain ⟨a, b⟩ := p
    by_cases hak : a = k
    · subst hak
      have hset : mapSet ((a, b) :: rest) a v = (a, v) :: rest := by
        simp [mapSet]
      have hlook : mapLookup ((a, b) :: rest) a = some b := by
        simp [mapLookup]
      rw [hset, hlook, Option.getD_some, msum_cons, msum_cons,
        add_right_comm (F v) (msum F rest) (F b),
        add_comm (F v) (F b),
        add_right_comm (F b) (F v) (msum F rest)]
    · have hset : mapSet ((a, b) :: rest) k v = (a, b) :: mapSet rest k v := by
        simp [mapSet, hak]
      have hlook : mapLookup ((a, b) :: rest) k = mapLookup rest k := by
        simp [mapLookup, hak]
      rw [hset, hlook, msum_cons, msum_cons, add_assoc, ih, ← add_assoc]

theorem lookup_le_msum (F : β → Multiset Nat) (l : List (α × β)) (k : α)
    (v : β) (h : mapLookup l k = some v) : F v ≤ msum F l := by
  induction l with
  | nil => cases h
  | cons p rest ih =>
    obtain ⟨a, b⟩ := p
    simp only [mapLookup] at h
    by_cases hak : a = k
    · rw [if_pos hak] at h
      obtain rfl : b = v := Option.some.inj h
      simp only [msum, List.map_cons, List.sum_cons]
      exact self_le_add_right _ _
    · rw [if_neg hak] at h
      simp only [msum, List.map_cons, List.sum_cons]
      exact (ih h).trans (self_le_add_left _ _)

theorem msum_mapDelete_le (F : β → Multiset Nat) (l : List (α × β)) (k : α) :
    msum F (mapDelete l k) ≤ msum F l := by
  induction l with
  | nil => simp [mapDelete]
  | cons p rest ih =>
    obtain ⟨a, b⟩ := p
    by_cases hak : a = k
    · subst hak
      simp only [mapDelete, if_pos rfl, msum, List.map_cons, List.sum_cons]
      exact self_le_add_left _ _
    · simp only [mapDelete, if_neg hak, msum, List.map_cons, List.sum_cons]
      exact add_le_add_left ih _

theorem strokeCtrs_nil : strokeCtrs [] = 0 := rfl

theorem stackCtrs_nil : stackCtrs [] = 0 := rfl

theorem strokeCtrs_append (l₁ l₂ : List Stroke) :
    strokeCtrs (l₁ ++ l₂) = strokeCtrs l₁ + strokeCtrs l₂ := by
  simp [strokeCtrs]

theorem strokeCtrs_concat (l : List Stroke) (s : Stroke) :
    strokeCtrs (l ++ [s]) = s.id.counter ::ₘ strokeCtrs l := by
  rw [strokeCtrs_append]
  have : strokeCtrs [s] = {s.id.counter} := rfl
  rw [this, add_comm]
  rfl

theorem strokeCtrs_middle (A B : List Stroke) (t : Stroke) :
    strokeCtrs (A ++ t :: B) = t.id.counter ::ₘ strokeCtrs (A ++ B) := by
  rw [strokeCtrs_append, strokeCtrs_append]
  have : strokeCtrs (t :: B) = t.id.counter ::ₘ strokeCtrs B := rfl
  rw [this, Multiset.add_cons]

theorem allCtrs_mk (rs : List (String × List Stroke))
    (rd : List (String × List (String × List Stroke))) (c : Nat) :
    allCtrs ⟨rs, rd, c⟩ = msum strokeCtrs rs + msum stackCtrs rd := rfl

theorem allCtrs_initRoom_le (roomId : String) (st : SMState) :
    allCtrs (initRoom roomId st) ≤ allCtrs st := by
  unfold initRoom
  by_cases hh : mapHas st.roomStrokes roomId
  · simp [hh]
  · simp only [hh, Bool.false_eq_true, if_false]
    rw [allCtrs_mk]
    have h1 := msum_mapSet_getD strokeCtrs [] rfl st.roomStrokes roomId []
    have h2 := msum_mapSet_getD stackCtrs [] rfl st.redoStacks roomId []
    rw [strokeCtrs_nil, add_zero] at h1
    rw [stackCtrs_nil, add_zero] at h2
    have e1 : msum strokeCtrs (mapSet st.roomStrokes roomId []) ≤
        msum strokeCtrs st.roomStrokes :=
      le_of_le_of_eq (self_le_add_right _ _) h1
    have e2 : msum stackCtrs (mapSet st.redoStacks roomId []) ≤
        msum stackCtrs st.redoStacks :=
      le_of_le_of_eq (self_le_add_right _ _) h2
    exact add_le_add e1 e2

theorem addStroke_snd_eq (roomId : String) (d : StrokeData) (now : Nat)
    (st : SMState) :
    (addStroke roomId d now st).2 =
      ⟨mapSet (initRoom roomId st).roomStrokes roomId
          (((mapLookup (initRoom roomId st).roomStrokes roomId).getD []) ++
            [⟨⟨now, st.strokeIdCounter + 1⟩, d, now⟩]),
        (if mapHas ((mapLookup (initRoom roomId st).redoStacks roomId).getD [])
              d.userId then
            mapSet (initRoom roomId st).redoStacks roomId
              (mapSet
                ((mapLookup (initRoom roomId st).redoStacks roomId).getD [])
                d.userId [])
          else (initRoom roomId st).redoStacks),
        st.strokeIdCounter + 1⟩ := by
  simp only [addStroke, generateStrokeId]
  by_cases hu :
      mapHas ((mapLookup (initRoom roomId st).redoStacks roomId).getD [])
        d.userId <;>
    simp [hu, strokeIdCounter_initRoom]

theorem allCtrs_addStroke_le (roomId : String) (d : StrokeData) (now : Nat)
    (st : SMState) :
    allCtrs (addStroke roomId d now st).2 ≤
      (st.strokeIdCounter + 1) ::ₘ allCtrs st := by
  rw [addStroke_snd_eq, allCtrs_mk]
  have h1 := msum_mapSet_getD strokeCtrs [] rfl
      (initRoom roomId st).roomStrokes roomId
      (((mapLookup (initRoom roomId st).roomStrokes roomId).getD []) ++
        [⟨⟨now, st.strokeIdCounter + 1⟩, d, now⟩])
  rw [strokeCtrs_concat] at h1
  have hrs : msum strokeCtrs
      (mapSet (initRoom roomId st).roomStrokes roomId
        (((mapLookup (initRoom roomId st).roomStrokes roomId).getD []) ++
          [⟨⟨now, st.strokeIdCounter + 1⟩, d, now⟩])) =
      (st.strokeIdCounter + 1) ::ₘ
        msum strokeCtrs (initRoom roomId st).roomStrokes := by
    apply add_right_cancel
      (b := strokeCtrs
        ((mapLookup (initRoom roomId st).roomStrokes roomId).getD []))
    rw [h1, Multiset.add_cons, Multiset.cons_add]
  have hrd : msum stackCtrs
      (if mapHas ((mapLookup (initRoom roomId st).redoStacks roomId).getD [])
            d.userId then
          mapSet (initRoom roomId st).redoStacks roomId
            (mapSet ((mapLookup (initRoom roomId st).redoStacks roomId).getD [])
              d.userId [])
        else (initRoom roomId st).redoStacks) ≤
      msum stackCtrs (initRoom roomId st).redoStacks := by
    by_cases hu :
        mapHas ((mapLookup (initRoom roomId st).redoStacks roomId).getD [])
          d.userId
    · rw [if_pos hu]
      have hinner := msum_mapSet_getD strokeCtrs [] rfl
          ((mapLookup (initRoom roomId st).redoStacks roomId).getD [])
          d.userId []
      rw [strokeCtrs_nil, add_zero] at hinner
      have hinner_le :
          msum strokeCtrs
              (mapSet ((mapLookup (initRoom roomId st).redoStacks
                  roomId).getD []) d.userId []) ≤
            msum strokeCtrs
              ((mapLookup (initRoom roomId st).redoStacks roomId).getD []) :=
        le_of_le_of_eq (self_le_add_right _ _) hinner
      have houter := msum_mapSet_getD stackCtrs [] rfl
          (initRoom roomId st).redoStacks roomId
          (mapSet ((mapLookup (initRoom roomId st).redoStacks roomId).getD [])
            d.userId [])
      have hsum :
          msum stackCtrs
              (mapSet (initRoom roomId st).redoStacks roomId
                (mapSet ((mapLookup (initRoom roomId st).redoStacks
                    roomId).getD []) d.userId [])) +
            stackCtrs
              ((mapLookup (initRoom roomId st).redoStacks roomId).getD []) ≤
          msum stackCtrs (initRoom roomId st).redoStacks +
            stackCtrs
              ((mapLookup (initRoom roomId st).redoStacks roomId).getD []) := by
        rw [houter]
        exact add_le_add_left hinner_le _
      exact le_of_add_le_add_right hsum
    · rw [if_neg hu]
  calc msum strokeCtrs
        (mapSet (initRoom roomId st).roomStrokes roomId
          (((mapLookup (initRoom roomId st).roomStrokes roomId).getD []) ++
            [⟨⟨now, st.strokeIdCounter + 1⟩, d, now⟩])) +
      msum stackCtrs
        (if mapHas ((mapLookup (initRoom roomId st).redoStacks roomId).getD [])
              d.userId then
            mapSet (initRoom roomId st).redoStacks roomId
              (mapSet ((mapLookup (initRoom roomId st).redoStacks
                  roomId).getD []) d.userId [])
          else (initRoom roomId st).redoStacks)
      ≤ ((st.strokeIdCounter + 1) ::ₘ
          msum strokeCtrs (initRoom roomId st).roomStrokes) +
        msum stackCtrs (initRoom roomId st).redoStacks := by
        rw [hrs]
        exact add_le_add_left hrd _
    _ = (st.strokeIdCounter + 1) ::ₘ allCtrs (initRoom roomId st) := by
        rw [Multiset.cons_add]
        rfl
    _ ≤ (st.strokeIdCounter + 1) ::ₘ allCtrs st :=
        Multiset.cons_le_cons _ (allCtrs_initRoom_le _ _)

theorem allCtrs_undoStroke_le (roomId userId : String) (st : SMState) :
    allCtrs (undoStroke roomId userId st).2 ≤ allCtrs st := by
  cases hrem : removeLastBy userId (roomHist st roomId) with
  | none =>
    rw [undoStroke_eq_none _ _ _ hrem]
    exact allCtrs_initRoom_le _ _
  | some p =>
    obtain ⟨t, strokes'⟩ := p
    have hhas := mapHas_of_removeLastBy_some _ _ _ _ hrem
    rw [undoStroke_eq_some _ _ _ _ _ hhas hrem]
    obtain ⟨howner, A, B, hsplit, hrem', hB⟩ :=
      removeLastBy_eq_some _ _ _ _ hrem
    rw [allCtrs_mk]
    have hists :
        strokeCtrs ((mapLookup st.roomStrokes roomId).getD []) =
          t.id.counter ::ₘ strokeCtrs strokes' := by
      have := hsplit
      unfold roomHist at this
      rw [this, hrem', strokeCtrs_middle]
    have h1 := msum_mapSet_getD strokeCtrs [] rfl st.roomStrokes roomId
        strokes'
    rw [hists] at h1
    have hrs : msum strokeCtrs (mapSet st.roomStrokes roomId strokes') +
        {t.id.counter} = msum strokeCtrs st.roomStrokes := by
      apply add_right_cancel (b := strokeCtrs strokes')
      rw [add_assoc, Multiset.singleton_add]
      exact h1
    have hin := msum_mapSet_getD strokeCtrs [] rfl
        ((mapLookup st.redoStacks roomId).getD []) userId
        (userRedo st roomId userId ++ [t])
    rw [strokeCtrs_concat] at hin
    have hM : msum strokeCtrs
          (mapSet ((mapLookup st.redoStacks roomId).getD []) userId
            (userRedo st roomId userId ++ [t])) =
        msum strokeCtrs ((mapLookup st.redoStacks roomId).getD []) +
          {t.id.counter} := by
      apply add_right_cancel (b := strokeCtrs
        ((mapLookup ((mapLookup st.redoStacks roomId).getD [])
          userId).getD []))
      rw [hin, add_assoc, Multiset.singleton_add]
      have huser : strokeCtrs
          ((mapLookup ((mapLookup st.redoStacks roomId).getD [])
            userId).getD []) = strokeCtrs (userRedo st roomId userId) := rfl
      rw [huser]
    have hout := msum_mapSet_getD stackCtrs [] rfl st.redoStacks roomId
        (mapSet ((mapLookup st.redoStacks roomId).getD []) userId
          (userRedo st roomId userId ++ [t]))
    have hsc2 : stackCtrs
          (mapSet ((mapLookup st.redoStacks roomId).getD []) userId
            (userRedo st roomId userId ++ [t])) =
        msum strokeCtrs
          (mapSet ((mapLookup st.redoStacks roomId).getD []) userId
            (userRedo st roomId userId ++ [t])) := rfl
    rw [hsc2, hM] at hout
    have hrd : msum stackCtrs
          (mapSet st.redoStacks roomId
            (mapSet ((mapLookup st.redoStacks roomId).getD []) userId
              (userRedo st roomId userId ++ [t]))) =
        msum stackCtrs st.redoStacks + {t.id.counter} := by
      apply add_right_cancel (b := stackCtrs
        ((mapLookup st.redoStacks roomId).getD []))
      rw [hout]
      have hsc : stackCtrs ((mapLookup st.redoStacks roomId).getD []) =
          msum strokeCtrs ((mapLookup st.redoStacks roomId).getD []) := rfl
      rw [hsc, ← add_assoc, add_right_comm]
    apply le_of_eq
    rw [hrd, ← add_assoc, add_right_comm, hrs]
    rfl

theorem allCtrs_redoStroke_le (roomId userId : String) (st : SMState) :
    allCtrs (redoStroke roomId userId st).2 ≤ allCtrs st := by
  by_cases hhas : mapHas st.roomStrokes roomId
  · cases hstk :
        mapLookup ((mapLookup st.redoStacks roomId).getD []) userId with
    | none =>
      have hempty : userRedo st roomId userId = [] := by
        unfold userRedo
        rw [hstk]
        rfl
      rw [redoStroke_eq_none _ _ _ hempty]
      exact allCtrs_initRoom_le _ _
    | some stk =>
      rcases List.eq_nil_or_concat stk with rfl | ⟨stk', s, rfl⟩
      · have hempty : userRedo st roomId userId = [] := by
          unfold userRedo
          rw [hstk]
          rfl
        rw [redoStroke_eq_none _ _ _ hempty]
        exact allCtrs_initRoom_le _ _
      · rw [List.concat_eq_append] at hstk
        rw [redoStroke_eq_some _ _ _ _ _ hhas hstk]
        rw [allCtrs_mk]
        have h1 := msum_mapSet_getD strokeCtrs [] rfl st.roomStrokes roomId
            (roomHist st roomId ++ [s])
        rw [strokeCtrs_concat] at h1
        have hglue : strokeCtrs ((mapLookup st.roomStrokes roomId).getD []) =
            strokeCtrs (roomHist st roomId) := rfl
        rw [hglue] at h1
        have hrs : msum strokeCtrs
              (mapSet st.roomStrokes roomId (roomHist st roomId ++ [s])) =
            msum strokeCtrs st.roomStrokes + {s.id.counter} := by
          apply add_right_cancel (b := strokeCtrs (roomHist st roomId))
          rw [h1, add_assoc, Multiset.singleton_add]
        have hin := msum_mapSet_getD strokeCtrs [] rfl
            ((mapLookup st.redoStacks roomId).getD []) userId stk'
        rw [hstk, Option.getD_some, strokeCtrs_concat] at hin
        have hM : msum strokeCtrs
              (mapSet ((mapLookup st.redoStacks roomId).getD []) userId
                stk') + {s.id.counter} =
            msum strokeCtrs ((mapLookup st.redoStacks roomId).getD []) := by
          apply add_right_cancel (b := strokeCtrs stk')
          rw [add_assoc, Multiset.singleton_add]
          exact hin
        have hout := msum_mapSet_getD stackCtrs [] rfl st.redoStacks roomId
            (mapSet ((mapLookup st.redoStacks roomId).getD []) userId stk')
        have hrd : msum stackCtrs
              (mapSet st.redoStacks roomId
                (mapSet ((mapLookup st.redoStacks roomId).getD []) userId
                  stk')) + {s.id.counter} =
            msum stackCtrs st.redoStacks := by
          apply add_right_cancel (b := stackCtrs
            (mapSet ((mapLookup st.redoStacks roomId).getD []) userId stk'))
          rw [add_assoc, add_comm ({s.id.counter} : Multiset Nat)
            (stackCtrs
              (mapSet ((mapLookup st.redoStacks roomId).getD []) userId
                stk'))]
          have hbridge : stackCtrs
                (mapSet ((mapLookup st.redoStacks roomId).getD []) userId
                  stk') + {s.id.counter} =
              stackCtrs ((mapLookup st.redoStacks roomId).getD []) := hM
          rw [hbridge]
          exact hout
        apply le_of_eq
        rw [hrs, add_right_comm, add_assoc, hrd]
        rfl
  · rw [redoStroke_of_not_has _ _ _ hhas]
    exact allCtrs_initRoom_le _ _

theorem allCtrs_clearStrokes_le (roomId : String) (st : SMState) :
    allCtrs (clearStrokes roomId st) ≤ allCtrs st := by
  unfold clearStrokes
  have h1 := msum_mapSet_getD strokeCtrs [] rfl
      (initRoom roomId st).roomStrokes roomId []
  have h2 := msum_mapSet_getD stackCtrs [] rfl
      (initRoom roomId st).redoStacks roomId []
  rw [strokeCtrs_nil, add_zero] at h1
  rw [stackCtrs_nil, add_zero] at h2
  have e1 : msum strokeCtrs
      (mapSet (initRoom roomId st).roomStrokes roomId []) ≤
      msum strokeCtrs (initRoom roomId st).roomStrokes :=
    le_of_le_of_eq (self_le_add_right _ _) h1
  have e2 : msum stackCtrs
      (mapSet (initRoom roomId st).redoStacks roomId []) ≤
      msum stackCtrs (initRoom roomId st).redoStacks :=
    le_of_le_of_eq (self_le_add_right _ _) h2
  exact (add_le_add e1 e2).trans (allCtrs_initRoom_le _ _)

theorem strokeCtrs_eraseIdx_le (l : List Stroke) (i : Nat) :
    strokeCtrs (l.eraseIdx i) ≤ strokeCtrs l := by
  have hsub : List.Sublist ((l.eraseIdx i).map (fun s => s.id.counter))
      (l.map (fun s => s.id.counter)) :=
    (List.eraseIdx_sublist l i).map _
  exact Multiset.coe_le.2 hsub.subperm

theorem allCtrs_removeStroke_le (roomId : String) (sid : StrokeId)
    (st : SMState) :
    allCtrs (removeStroke roomId sid st).2 ≤ allCtrs st := by
  simp only [removeStroke]
  cases hfind :
      ((mapLookup (initRoom roomId st).roomStrokes roomId).getD
          []).findIdx? (fun s => s.id = sid) with
  | none =>
    simp only [hfind]
    exact allCtrs_initRoom_le _ _
  | some i =>
    simp only [hfind]
    have h1 := msum_mapSet_getD strokeCtrs [] rfl
        (initRoom roomId st).roomStrokes roomId
        (((mapLookup (initRoom roomId st).roomStrokes roomId).getD
            []).eraseIdx i)
    have herase : strokeCtrs
        (((mapLookup (initRoom roomId st).roomStrokes roomId).getD
            []).eraseIdx i) ≤
        strokeCtrs
          ((mapLookup (initRoom roomId st).roomStrokes roomId).getD []) :=
      strokeCtrs_eraseIdx_le _ _
    have hsum : msum strokeCtrs
          (mapSet (initRoom roomId st).roomStrokes roomId
            (((mapLookup (initRoom roomId st).roomStrokes roomId).getD
                []).eraseIdx i)) +
        strokeCtrs
          ((mapLookup (initRoom roomId st).roomStrokes roomId).getD []) ≤
        msum strokeCtrs (initRoom roomId st).roomStrokes +
          strokeCtrs
            ((mapLookup (initRoom roomId st).roomStrokes roomId).getD []) := by
      rw [h1]
      exact add_le_add_left herase _
    have hrs := le_of_add_le_add_right hsum
    exact (add_le_add_right hrs _).trans (allCtrs_initRoom_le _ _)

theorem allCtrs_cleanupUserHistory_le (roomId userId : String)
    (st : SMState) :
    allCtrs (cleanupUserHistory roomId userId st) ≤ allCtrs st := by
  unfold cleanupUserHistory
  cases hlk : mapLookup st.redoStacks roomId with
  | none => simp [hlk]
  | some m =>
    simp only [hlk]
    have hout := msum_mapSet_getD stackCtrs [] rfl st.redoStacks roomId
        (mapDelete m userId)
    rw [hlk, Option.getD_some] at hout
    have hdel : stackCtrs (mapDelete m userId) ≤ stackCtrs m :=
      msum_mapDelete_le _ _ _
    have hsum : msum stackCtrs
          (mapSet st.redoStacks roomId (mapDelete m userId)) +
          stackCtrs m ≤
        msum stackCtrs st.redoStacks + stackCtrs m := by
      rw [hout]
      exact add_le_add_left hdel _
    exact add_le_add_left (le_of_add_le_add_right hsum) _

theorem allCtrs_applySMOp_le (op : SMOp) (st : SMState) :
    allCtrs (applySMOp op st) ≤
      (match op with
        | .add _ _ _ => (st.strokeIdCounter + 1) ::ₘ allCtrs st
        | _ => allCtrs st) := by
  cases op with
  | add roomId d now => exact allCtrs_addStroke_le roomId d now st
  | get roomId => exact allCtrs_initRoom_le _ _
  | undo roomId userId => exact allCtrs_undoStroke_le _ _ _
  | redo roomId userId => exact allCtrs_redoStroke_le _ _ _
  | clear roomId => exact allCtrs_clearStrokes_le _ _
  | remove roomId sid => exact allCtrs_removeStroke_le _ _ _
  | count roomId => exact allCtrs_initRoom_le _ _
  | cleanup roomId userId => exact allCtrs_cleanupUserHistory_le _ _ _
  | userStrokes roomId userId => exact allCtrs_initRoom_le _ _

theorem undoStroke_counter (roomId userId : String) (st : SMState) :
    (undoStroke roomId userId st).2.strokeIdCounter = st.strokeIdCounter := by
  cases hrem : removeLastBy userId (roomHist st roomId) with
  | none =>
    rw [undoStroke_eq_none _ _ _ hrem]
    exact strokeIdCounter_initRoom _ _
  | some p =>
    obtain ⟨t, strokes'⟩ := p
    rw [undoStroke_eq_some _ _ _ _ _
      (mapHas_of_removeLastBy_some _ _ _ _ hrem) hrem]

theorem redoStroke_counter (roomId userId : String) (st : SMState) :
    (redoStroke roomId userId st).2.strokeIdCounter = st.strokeIdCounter := by
  by_cases hhas : mapHas st.roomStrokes roomId
  · cases hstk :
        mapLookup ((mapLookup st.redoStacks roomId).getD []) userId with
    | none =>
      have hempty : userRedo st roomId userId = [] := by
        unfold userRedo
        rw [hstk]
        rfl
      rw [redoStroke_eq_none _ _ _ hempty]
      exact strokeIdCounter_initRoom _ _
    | some stk =>
      rcases List.eq_nil_or_concat stk with rfl | ⟨stk', s, rfl⟩
      · have hempty : userRedo st roomId userId = [] := by
          unfold userRedo
          rw [hstk]
          rfl
        rw [redoStroke_eq_none _ _ _ hempty]
        exact strokeIdCounter_initRoom _ _
      · rw [List.concat_eq_append] at hstk
        rw [redoStroke_eq_some _ _ _ _ _ hhas hstk]
  · rw [redoStroke_of_not_has _ _ _ hhas]
    exact strokeIdCounter_initRoom _ _

theorem clearStrokes_counter (roomId : String) (st : SMState) :
    (clearStrokes roomId st).strokeIdCounter = st.strokeIdCounter := by
  unfold clearStrokes
  exact strokeIdCounter_initRoom _ _

theorem removeStroke_counter (roomId : String) (sid : StrokeId)
    (st : SMState) :
    (removeStroke roomId sid st).2.strokeIdCounter = st.strokeIdCounter := by
  simp only [removeStroke]
  cases hfind :
      ((mapLookup (initRoom roomId st).roomStrokes roomId).getD
          []).findIdx? (fun s => s.id = sid) with
  | none =>
    simp only [hfind]
    exact strokeIdCounter_initRoom _ _
  | some i =>
    simp only [hfind]
    exact strokeIdCounter_initRoom _ _

theorem cleanupUserHistory_counter (roomId userId : String) (st : SMState) :
    (cleanupUserHistory roomId userId st).strokeIdCounter =
      st.strokeIdCounter := by
  unfold cleanupUserHistory
  cases hlk : mapLookup st.redoStacks roomId <;> simp [hlk]

theorem ctrInv_applySMOp (op : SMOp) (st : SMState) (h : ctrInv st) :
    ctrInv (applySMOp op st) := by
  obtain ⟨hnodup, hbound⟩ := h
  cases op with
  | add roomId d now =>
    have hle := allCtrs_addStroke_le roomId d now st
    have hctr := addStroke_counter roomId d now st
    have hnotmem : st.strokeIdCounter + 1 ∉ allCtrs st := fun hc =>
      absurd (hbound _ hc) (by omega)
    constructor
    · exact Multiset.nodup_of_le hle
        (Multiset.nodup_cons.2 ⟨hnotmem, hnodup⟩)
    · intro x hx
      have hctr2 : (applySMOp (SMOp.add roomId d now) st).strokeIdCounter =
          st.strokeIdCounter + 1 := hctr
      rw [hctr2]
      rcases Multiset.mem_cons.1 (Multiset.mem_of_le hle hx) with rfl | hmem
      · exact le_refl _
      · exact (hbound _ hmem).trans (Nat.le_succ _)
  | get roomId =>
    exact ⟨Multiset.nodup_of_le (allCtrs_initRoom_le _ _) hnodup,
      fun x hx => by
        rw [show (applySMOp (SMOp.get roomId) st).strokeIdCounter =
            st.strokeIdCounter from strokeIdCounter_initRoom _ _]
        exact hbound _ (Multiset.mem_of_le (allCtrs_initRoom_le _ _) hx)⟩
  | undo roomId userId =>
    exact ⟨Multiset.nodup_of_le (allCtrs_undoStroke_le _ _ _) hnodup,
      fun x hx => by
        rw [show (applySMOp (SMOp.undo roomId userId) st).strokeIdCounter =
            st.strokeIdCounter from undoStroke_counter _ _ _]
        exact hbound _ (Multiset.mem_of_le (allCtrs_undoStroke_le _ _ _) hx)⟩
  | redo roomId userId =>
    exact ⟨Multiset.nodup_of_le (allCtrs_redoStroke_le _ _ _) hnodup,
      fun x hx => by
        rw [show (applySMOp (SMOp.redo roomId userId) st).strokeIdCounter =
            st.strokeIdCounter from redoStroke_counter _ _ _]
        exact hbound _ (Multiset.mem_of_le (allCtrs_redoStroke_le _ _ _) hx)⟩
  | clear roomId =>
    exact ⟨Multiset.nodup_of_le (allCtrs_clearStrokes_le _ _) hnodup,
      fun x hx => by
        rw [show (applySMOp (SMOp.clear roomId) st).strokeIdCounter =
            st.strokeIdCounter from clearStrokes_counter _ _]
        exact hbound _ (Multiset.mem_of_le (allCtrs_clearStrokes_le _ _) hx)⟩
  | remove roomId sid =>
    exact ⟨Multiset.nodup_of_le (allCtrs_removeStroke_le _ _ _) hnodup,
      fun x hx => by
        rw [show (applySMOp (SMOp.remove roomId sid) st).strokeIdCounter =
            st.strokeIdCounter from removeStroke_counter _ _ _]
        exact hbound _
          (Multiset.mem_of_le (allCtrs_removeStroke_le _ _ _) hx)⟩
  | count roomId =>
    exact ⟨Multiset.nodup_of_le (allCtrs_initRoom_le _ _) hnodup,
      fun x hx => by
        rw [show (applySMOp (SMOp.count roomId) st).strokeIdCounter =
            st.strokeIdCounter from strokeIdCounter_initRoom _ _]
        exact hbound _ (Multiset.mem_of_le (allCtrs_initRoom_le _ _) hx)⟩
  | cleanup roomId userId =>
    exact ⟨Multiset.nodup_of_le (allCtrs_cleanupUserHistory_le _ _ _) hnodup,
      fun x hx => by
        rw [show (applySMOp
            (SMOp.cleanup roomId userId) st).strokeIdCounter =
            st.strokeIdCounter from cleanupUserHistory_counter _ _ _]
        exact hbound _
          (Multiset.mem_of_le (allCtrs_cleanupUserHistory_le _ _ _) hx)⟩
  | userStrokes roomId userId =>
    exact ⟨Multiset.nodup_of_le (allCtrs_initRoom_le _ _) hnodup,
      fun x hx => by
        rw [show (applySMOp
            (SMOp.userStrokes roomId userId) st).strokeIdCounter =
            st.strokeIdCounter from strokeIdCounter_initRoom _ _]
        exact hbound _ (Multiset.mem_of_le (allCtrs_initRoom_le _ _) hx)⟩

theorem ctrInv_applySMOps (ops : List SMOp) (st : SMState) (h : ctrInv st) :
    ctrInv (applySMOps ops st) := by
  induction ops generalizing st with
  | nil => exact h
  | cons op rest ih => exact ih _ (ctrInv_applySMOp op st h)

theorem ctrInv_initial : ctrInv SMState.initial := by
  constructor
  · exact Multiset.nodup_zero
  · intro c hc
    cases hc

/- ### Claim C9 -/

/-- C9: along every run of state-manager calls from the freshly
constructed store, the identifier counters of all strokes held anywhere
in the store (histories and redo stacks alike) are pairwise distinct —
each generated identifier differs from every previously assigned one —
and consequently no room's history ever contains two strokes with the
same identifier. -/
theorem c9_stroke_ids_unique (ops : List SMOp) (roomId : String) :
    (allCtrs (applySMOps ops SMState.initial)).Nodup ∧
    ((roomHist (applySMOps ops SMState.initial) roomId).map
        (fun s => s.id)).Nodup := by
  have hinv := ctrInv_applySMOps ops SMState.initial ctrInv_initial
  refine ⟨hinv.1, ?_⟩
  have hsub : strokeCtrs (roomHist (applySMOps ops SMState.initial) roomId) ≤
      allCtrs (applySMOps ops SMState.initial) := by
    unfold roomHist
    cases hlk : mapLookup (applySMOps ops SMState.initial).roomStrokes
        roomId with
    | none =>
      simp only [Option.getD_none, strokeCtrs_nil]
      exact zero_le _
    | some hist =>
      simp only [Option.getD_some]
      exact (lookup_le_msum strokeCtrs _ _ _ hlk).trans
        (self_le_add_right _ _)
  have hnd : (strokeCtrs
      (roomHist (applySMOps ops SMState.initial) roomId)).Nodup :=
    Multiset.nodup_of_le hsub hinv.1
  have hnd2 : (((roomHist (applySMOps ops SMState.initial) roomId).map
      (fun s => s.id.counter) : List Nat) : Multiset Nat).Nodup := hnd
  have hndl : ((roomHist (applySMOps ops SMState.initial) roomId).map
      (fun s => s.id.counter)).Nodup := Multiset.coe_nodup.1 hnd2
  have hcomp : (((roomHist (applySMOps ops SMState.initial) roomId).map
      (fun s => s.id)).map StrokeId.counter).Nodup := by
    rw [List.map_map]
    exact hndl
  exact List.Nodup.of_map _ hcomp

end CollabCanvas
